import Mathlib

/-!
# Verification of the coati marginal pairwise aligner

Shallow embedding of the parts of the `coati` repository that the checked
claims are about:

* `src/lib/align_marginal.cc` — `alignment_score` (replay scoring of a
  pre-aligned pair), `order_ref` (reference reordering) and the
  `marg_alignment` driver control flow;
* `src/lib/mutation_coati.cc` — `mg94_p` (MG94 rate-matrix construction,
  up to the matrix exponential), `gtr_q`, and `marginal_p` (192×4 marginal
  projection);
* `src/lib/tree.cc` — the newick semantic actions (`make_leaf` /
  `make_inode`), `find_node`, `reroot` and the parent-walk used by
  `reroot` and `distance_ref`.

Machine floats are modelled as real numbers; `logf` on nonnegative
arguments is modelled by an `EReal`-valued logarithm so that the IEEE
value `-inf` produced by `logf 0` is represented faithfully by `⊥`.
Functions from `src/lib/utils.cc` that are used but whose source is not
part of the verified tree (`cod_distance`, `marginal_seq_encoding`) are
modelled from the spec and marked as such in their doc comments.
-/

namespace Coati

/-- A nucleotide: 0 = A, 1 = C, 2 = G, 3 = T (the canonical coati coding,
also used inside codon indices as two-bit fields). -/
abbrev Nuc := Fin 4

/-- One symbol of an aligned sequence: a gap character `-` or a canonical
nucleotide.  (Ambiguous IUPAC codes are resolved inside the substitution
table lookup, which this embedding keeps abstract, so the replay claims
are stated over canonical symbols.) -/
inductive Sym where
  | gp : Sym
  | nt : Nuc → Sym
deriving DecidableEq, Repr

/-- Errors raised by `alignment_score`
(`src/lib/align_marginal.cc:433-518`): `invalidArgument` models the
`std::invalid_argument` thrown when the two aligned strings differ in
length, `unmodeled` models the `std::runtime_error` "Insertion after
deletion is not modeled". -/
inductive SErr where
  | invalidArgument : SErr
  | unmodeled : SErr
deriving DecidableEq, Repr

/-- The precomputed local weights of `alignment_score`
(`align_marginal.cc:450-457`): `no_gap = log(1-gap.open)`,
`gap_stop = log(1-gap.extend)`, `gap_open = log(gap.open)`,
`gap_extend = log(gap.extend)`, `lpi n = log(pi[n])` (the transformed
`pi` vector of line 455-457), and `pmarg row nuc` the marginal
substitution table `p_marg(row, nuc)` with `row` the encoded ancestor
entry (codon index · 3 + phase).  Carrying them as fields lets the replay
loop, which is pure arithmetic in the source, stay executable. -/
structure SParams where
  no_gap : ℝ
  gap_stop : ℝ
  gap_open : ℝ
  gap_extend : ℝ
  lpi : Nuc → ℝ
  pmarg : ℕ → Nuc → ℝ

/-- Modelled from the spec: `coati::utils::marginal_seq_encoding`
(`utils.cc`, not part of the verified tree) encodes position `k` of the
gap-free ancestor as "codon index containing `k` times 3 plus the phase
`k mod 3`", the row index of the marginal table (spec §3 "Encoded
pair"). Out-of-range positions read base A; no claim depends on them. -/
def seq_row (anc : List Nuc) (k : ℕ) : ℕ :=
  let c0 := (anc.getD (3 * (k / 3)) 0).val
  let c1 := (anc.getD (3 * (k / 3) + 1) 0).val
  let c2 := (anc.getD (3 * (k / 3) + 2) 0).val
  (16 * c0 + 4 * c1 + c2) * 3 + k % 3

/-- The gap-free ancestor used for table lookups:
`boost::erase_all(anc, "-")` of `align_marginal.cc:445`. -/
def eraseGaps (s : List Sym) : List Nuc :=
  s.filterMap (fun a => match a with | .gp => none | .nt n => some n)

/-- The replay loop of `alignment_score` (`align_marginal.cc:459-517`).
Arguments mirror the C++ locals: the remaining columns (pairs of
ancestor/descendant symbols at position `i`), `state` (0 = substitution,
1 = deletion, 2 = insertion), the absolute column index `i`, `ngap`
(number of ancestor gaps seen so far) and the accumulated `weight`.
On exhausting the columns the terminal weight of lines 511-516 is added.
The match in each state follows the C++ if-chain: the ancestor symbol is
tested for `-` first, then the descendant symbol. -/
def score_go (P : SParams) (anc : List Nuc) :
    List (Sym × Sym) → ℕ → ℕ → ℕ → ℝ → Except SErr ℝ
  | [], state, _, _, w =>
      .ok (w + (if state = 0 then P.no_gap
                else if state = 2 then P.gap_stop else 0))
  | (a, d) :: rest, 0, i, ngap, w =>
      match a, d with
      | .gp, _ => score_go P anc rest 2 (i + 1) (ngap + 1) (w + P.gap_open)
      | .nt _, .gp =>
          score_go P anc rest 1 (i + 1) ngap (w + P.no_gap + P.gap_open)
      | .nt _, .nt n =>
          score_go P anc rest 0 (i + 1) ngap
            (w + 2 * P.no_gap + P.pmarg (seq_row anc (i - ngap)) n)
  | (a, d) :: rest, 1, i, ngap, w =>
      match a, d with
      | .gp, _ => .error .unmodeled
      | .nt _, .gp => score_go P anc rest 1 (i + 1) ngap (w + P.gap_extend)
      | .nt _, .nt n =>
          score_go P anc rest 0 (i + 1) ngap
            (w + P.gap_stop + P.pmarg (seq_row anc (i - ngap)) n)
  | (a, d) :: rest, _, i, ngap, w =>
      match a, d with
      | .gp, _ => score_go P anc rest 2 (i + 1) (ngap + 1) (w + P.gap_extend)
      | .nt _, .gp =>
          score_go P anc rest 1 (i + 1) ngap (w + P.gap_stop + P.gap_open)
      | .nt _, .nt n =>
          score_go P anc rest 0 (i + 1) ngap
            (w + P.gap_stop + P.no_gap + P.pmarg (seq_row anc (i - ngap)) n)

/-- `coati::alignment_score` (`align_marginal.cc:433-518`): reject pairs
of unequal length, then replay the state machine over the columns
starting in the substitution state with weight 0. -/
def alignment_score (P : SParams) (s0 s1 : List Sym) : Except SErr ℝ :=
  if s0.length ≠ s1.length then .error .invalidArgument
  else score_go P (eraseGaps s0) (s0.zip s1) 0 0 0 0

/-- A deletion column: the ancestor emits a base, the descendant a gap. -/
def isDel (c : Sym × Sym) : Bool :=
  match c with
  | (.nt _, .gp) => true
  | _ => false

/-- The first remaining column is an insertion column (ancestor gap). -/
def headIns (cols : List (Sym × Sym)) : Bool :=
  match cols with
  | (.gp, _) :: _ => true
  | _ => false

/-- The column list contains an insertion column (gap in the ancestor
row) immediately after a deletion column (gap in the descendant row,
base in the ancestor row) — the pattern `alignment_score` rejects. -/
def hasID : List (Sym × Sym) → Bool
  | [] => false
  | c :: rest => (isDel c && headIns rest) || hasID rest

/-- The replay state machine raises `unmodeled` exactly when the
remaining columns contain an insertion column directly after a deletion
column, or when it is already in the deletion state and the first
remaining column is an insertion column.  (The accumulated weight and the
position counters never influence the raised error.) -/
theorem score_go_unmodeled (P : SParams) (anc : List Nuc) :
    ∀ (cols : List (Sym × Sym)) (state i ngap : ℕ) (w : ℝ),
      score_go P anc cols state i ngap w = .error .unmodeled ↔
        (hasID cols || (state == 1 && headIns cols)) = true := by
  intro cols
  induction cols with
  | nil =>
      intro state i ngap w
      simp [score_go, hasID, headIns]
  | cons c rest ih =>
      intro state i ngap w
      obtain ⟨a, d⟩ := c
      match state with
      | 0 =>
          cases a with
          | gp => simp [score_go, hasID, headIns, isDel, ih]
          | nt m =>
              cases d with
              | gp => simp [score_go, hasID, headIns, isDel, ih, or_comm]
              | nt n => simp [score_go, hasID, headIns, isDel, ih]
      | 1 =>
          cases a with
          | gp => simp [score_go, hasID, headIns, isDel]
          | nt m =>
              cases d with
              | gp => simp [score_go, hasID, headIns, isDel, ih, or_comm]
              | nt n => simp [score_go, hasID, headIns, isDel, ih]
      | (s + 2) =>
          cases a with
          | gp => simp [score_go, hasID, headIns, isDel, ih]
          | nt m =>
              cases d with
              | gp => simp [score_go, hasID, headIns, isDel, ih, or_comm]
              | nt n => simp [score_go, hasID, headIns, isDel, ih]

/-- C4: for every equal-length pre-aligned pair, `alignment_score` fails
with the `Unmodeled` error if and only if the pair contains an insertion
column (gap in the ancestor string) immediately following a deletion
column (gap in the descendant string while the ancestor has a base, i.e.
the last column of a deletion run); pairs without such an I-after-D
column never raise `Unmodeled`. -/
theorem alignment_score_unmodeled_iff (P : SParams) (s0 s1 : List Sym)
    (h : s0.length = s1.length) :
    alignment_score P s0 s1 = .error .unmodeled ↔
      hasID (s0.zip s1) = true := by
  unfold alignment_score
  rw [if_neg (by omega)]
  rw [score_go_unmodeled]
  simp

/-- Witness for C4 at the spec's own scenario: scoring the pre-aligned
pair ("ATAC-GGGTC", "ATA-GGGGTC") raises `Unmodeled` (column 3 is a
deletion, column 4 an insertion). -/
theorem alignment_score_unmodeled_iff_witness :
    alignment_score ⟨0, 0, 0, 0, fun _ => 0, fun _ _ => 0⟩
      [.nt 0, .nt 3, .nt 0, .nt 1, .gp, .nt 2, .nt 2, .nt 2, .nt 3, .nt 1]
      [.nt 0, .nt 3, .nt 0, .gp, .nt 2, .nt 2, .nt 2, .nt 2, .nt 3, .nt 1] =
      .error .unmodeled :=
  (alignment_score_unmodeled_iff _ _ _ (by decide)).mpr (by decide)

/-- Claim-side variant of the replay loop, following the words of C1 /
spec §4.D ("`emitI` consumes `g` descendant nucleotides;
weight = `Σ log π_{n_des}`"): identical to `score_go` except that every
descendant nucleotide consumed by an insertion column additionally
contributes its background log frequency `lpi` to the weight. -/
def score_go_claimed (P : SParams) (anc : List Nuc) :
    List (Sym × Sym) → ℕ → ℕ → ℕ → ℝ → Except SErr ℝ
  | [], state, _, _, w =>
      .ok (w + (if state = 0 then P.no_gap
                else if state = 2 then P.gap_stop else 0))
  | (a, d) :: rest, 0, i, ngap, w =>
      match a, d with
      | .gp, .nt n =>
          score_go_claimed P anc rest 2 (i + 1) (ngap + 1)
            (w + P.gap_open + P.lpi n)
      | .gp, .gp =>
          score_go_claimed P anc rest 2 (i + 1) (ngap + 1) (w + P.gap_open)
      | .nt _, .gp =>
          score_go_claimed P anc rest 1 (i + 1) ngap
            (w + P.no_gap + P.gap_open)
      | .nt _, .nt n =>
          score_go_claimed P anc rest 0 (i + 1) ngap
            (w + 2 * P.no_gap + P.pmarg (seq_row anc (i - ngap)) n)
  | (a, d) :: rest, 1, i, ngap, w =>
      match a, d with
      | .gp, _ => .error .unmodeled
      | .nt _, .gp =>
          score_go_claimed P anc rest 1 (i + 1) ngap (w + P.gap_extend)
      | .nt _, .nt n =>
          score_go_claimed P anc rest 0 (i + 1) ngap
            (w + P.gap_stop + P.pmarg (seq_row anc (i - ngap)) n)
  | (a, d) :: rest, _, i, ngap, w =>
      match a, d with
      | .gp, .nt n =>
          score_go_claimed P anc rest 2 (i + 1) (ngap + 1)
            (w + P.gap_extend + P.lpi n)
      | .gp, .gp =>
          score_go_claimed P anc rest 2 (i + 1) (ngap + 1) (w + P.gap_extend)
      | .nt _, .gp =>
          score_go_claimed P anc rest 1 (i + 1) ngap
            (w + P.gap_stop + P.gap_open)
      | .nt _, .nt n =>
          score_go_claimed P anc rest 0 (i + 1) ngap
            (w + P.gap_stop + P.no_gap + P.pmarg (seq_row anc (i - ngap)) n)

/-- The scoring function C1 describes: `alignment_score` with the
per-insertion background term. -/
def alignment_score_claimed (P : SParams) (s0 s1 : List Sym) :
    Except SErr ℝ :=
  if s0.length ≠ s1.length then .error .invalidArgument
  else score_go_claimed P (eraseGaps s0) (s0.zip s1) 0 0 0 0

/-- Counterexample to C1: on the single-column insertion pair
("-", "C") with all transition weights 0, `log π_C = -1` and a zero
marginal table, the code returns weight 0 while the claimed rule (each
inserted descendant nucleotide contributes its background log frequency
in addition to the transition weight) would return -1. -/
theorem alignment_score_ins_pi_cex :
    alignment_score ⟨0, 0, 0, 0, fun _ => -1, fun _ _ => 0⟩
        [.gp] [.nt 1] = .ok 0 ∧
      alignment_score_claimed ⟨0, 0, 0, 0, fun _ => -1, fun _ _ => 0⟩
        [.gp] [.nt 1] = .ok (-1) ∧
      (0 : ℝ) ≠ -1 := by
  refine ⟨?_, ?_, by norm_num⟩
  · simp [alignment_score, score_go, eraseGaps]
  · simp [alignment_score_claimed, score_go_claimed, eraseGaps]

/-- The replay loop never reads the transformed log-π vector: its result
is the same for any two values of that field (all other parameters
equal). -/
theorem score_go_lpi_irrel (a b c d : ℝ) (l1 l2 : Nuc → ℝ)
    (pm : ℕ → Nuc → ℝ) (anc : List Nuc) :
    ∀ (cols : List (Sym × Sym)) (state i ngap : ℕ) (w : ℝ),
      score_go ⟨a, b, c, d, l1, pm⟩ anc cols state i ngap w =
        score_go ⟨a, b, c, d, l2, pm⟩ anc cols state i ngap w := by
  intro cols
  induction cols with
  | nil => intro state i ngap w; simp [score_go]
  | cons c' rest ih =>
      intro state i ngap w
      obtain ⟨x, y⟩ := c'
      match state with
      | 0 => cases x <;> cases y <;> simp [score_go, ih]
      | 1 => cases x <;> cases y <;> simp [score_go, ih]
      | (s + 2) => cases x <;> cases y <;> simp [score_go, ih]

/-- Pure-insertion runs processed from the insertion state add one
`gap_extend` per column plus the terminal `gap_stop`. -/
theorem score_go_ins_run (a b c d : ℝ) (lpi : Nuc → ℝ)
    (pm : ℕ → Nuc → ℝ) :
    ∀ (ms : List Nuc) (i ngap : ℕ) (w : ℝ),
      score_go ⟨a, b, c, d, lpi, pm⟩ []
          ((List.replicate ms.length Sym.gp).zip (ms.map .nt)) 2 i ngap w =
        .ok (w + ms.length * d + b) := by
  intro ms
  induction ms with
  | nil => intro i ngap w; simp [score_go]
  | cons m ms ihm =>
      intro i ngap w
      rw [List.length_cons, List.replicate_succ, List.map_cons,
        List.zip_cons_cons]
      simp only [score_go]
      rw [ihm]
      simp only [Except.ok.injEq]
      push_cast
      ring

/-- C1 (amended): an insertion column contributes only the gap
open/extend transition weight to the weight returned by
`alignment_score`; no background log frequency of the inserted
descendant nucleotides is added — the log-π vector computed at
`align_marginal.cc:455-457` is never read, so the returned value is
independent of it, and a pure-insertion pair of k ≥ 1 columns scores
exactly `gap_open + (k-1)·gap_extend + gap_stop`. -/
theorem alignment_score_ins_transition_only
    (a b c d : ℝ) (lpi lpi' : Nuc → ℝ) (pm : ℕ → Nuc → ℝ)
    (s0 s1 : List Sym) (ds : List Nuc) (hds : ds ≠ []) :
    alignment_score ⟨a, b, c, d, lpi, pm⟩ s0 s1 =
        alignment_score ⟨a, b, c, d, lpi', pm⟩ s0 s1 ∧
      alignment_score ⟨a, b, c, d, lpi, pm⟩
          (List.replicate ds.length .gp) (ds.map .nt) =
        .ok (c + (ds.length - 1 : ℕ) * d + b) := by
  constructor
  · unfold alignment_score
    split
    · rfl
    · exact score_go_lpi_irrel a b c d lpi lpi' pm _ _ _ _ _ _
  · match ds, hds with
    | n :: ns, _ =>
        unfold alignment_score
        rw [if_neg (by simp)]
        rw [show eraseGaps (List.replicate (n :: ns).length Sym.gp) = [] by
          simp [eraseGaps, List.filterMap_replicate]]
        rw [List.length_cons, List.replicate_succ, List.map_cons,
          List.zip_cons_cons]
        simp only [score_go]
        rw [score_go_ins_run]
        simp only [Except.ok.injEq]
        push_cast
        ring

/-- Witness for the amended C1: a two-column insertion run scores
`gap_open + gap_extend + gap_stop`. -/
theorem alignment_score_ins_transition_only_witness :
    alignment_score ⟨0, 0, 5, 7, fun _ => -1, fun _ _ => 0⟩
        (List.replicate ([1, 2] : List Nuc).length .gp)
        (([1, 2] : List Nuc).map .nt) =
      .ok (5 + (([1, 2] : List Nuc).length - 1 : ℕ) * 7 + 0) :=
  (alignment_score_ins_transition_only 0 0 5 7 (fun _ => -1) (fun _ => -1)
    (fun _ _ => 0) [] [] [1, 2] (by decide)).2

/-- Error kinds surfaced by the `marg_alignment` driver, using the
spec's §7 vocabulary for the `std::invalid_argument` /
`std::runtime_error` throws of `align_marginal.cc`: `invalidInput` for
"Exactly two sequences required" and "Name of reference sequence not
found", `lengthConstraint` for the multiple-of-3 / multiple-of-gap-unit
checks and for `alignment_score`'s equal-length check, `unmodeled` for
insertion-after-deletion during replay. -/
inductive AlnErr where
  | invalidInput : AlnErr
  | lengthConstraint : AlnErr
  | unmodeled : AlnErr
deriving DecidableEq, Repr

/-- `std::swap` of elements 0 and 1, as applied to `aln.data.names` and
`aln.data.seqs` (`align_marginal.cc:118-122`). -/
def swap2 {α : Type} (l : List α) : List α :=
  match l with
  | x :: y :: rest => y :: x :: rest
  | l => l

/-- `coati::order_ref` (`align_marginal.cc:114-126`): keep the pair if
`names[0]` is the reference, swap if `names[1]` is, swap if neither
matches but `rev` is set, otherwise fail ("Name of reference sequence
not found"). Generic in the sequence type, since the function only swaps.
Missing name entries read as the empty string. -/
def order_ref {α : Type} (refs : String) (rev : Bool) (names : List String)
    (seqs : List α) : Except AlnErr (List String × List α) :=
  if names.getD 0 "" = refs then .ok (names, seqs)
  else if names.getD 1 "" = refs then .ok (swap2 names, swap2 seqs)
  else if rev then .ok (swap2 names, swap2 seqs)
  else .error .invalidInput

/-- The reference-reordering step of the driver
(`align_marginal.cc:53-56`): `order_ref` is invoked only when a reference
name was given (`!aln.refs.empty()`) or `rev` is set; otherwise the pair
is left untouched. -/
def driver_order {α : Type} (refs : String) (rev : Bool)
    (names : List String) (seqs : List α) :
    Except AlnErr (List String × List α) :=
  if refs ≠ "" ∨ rev then order_ref refs rev names seqs
  else .ok (names, seqs)

/-- The driver inputs that decide its control flow (`alignment_t`
fields): parsed names and sequences, reference name `refs`, the `rev`
and `score` flags and the gap unit length. -/
structure AlnIn where
  names : List String
  seqs : List (List Sym)
  refs : String
  rev : Bool
  score : Bool
  gap_len : ℕ

/-- Driver outcome: in score mode the printed replay weight; otherwise
the validated, reordered pair handed to the DP aligner (`viterbi_mem` /
`traceback` live in `align_pair.cc`, which is outside the verified
sources, so the aligned result itself is not modelled further). -/
inductive AlnOut where
  | scored : ℝ → AlnOut
  | aligned : List String → List (List Sym) → AlnOut

/-- Control flow of `coati::marg_alignment` (`align_marginal.cc:40-107`):
require exactly two sequences, reorder by reference, then either score
the pair and return (lines 58-62) or validate the length constraints of
lines 64-75 and hand the pair to the DP aligner.  The substitution table
(set by `utils::set_subst`, outside the verified sources) enters through
the `SParams` argument. -/
def marg_alignment (P : SParams) (a : AlnIn) : Except AlnErr AlnOut :=
  if a.names.length ≠ 2 ∨ a.seqs.length ≠ 2 then .error .invalidInput
  else
    match driver_order a.refs a.rev a.names a.seqs with
    | .error e => .error e
    | .ok (names, seqs) =>
        if a.score then
          match alignment_score P (seqs.getD 0 []) (seqs.getD 1 []) with
          | .error .invalidArgument => .error .lengthConstraint
          | .error .unmodeled => .error .unmodeled
          | .ok w => .ok (.scored w)
        else if (seqs.getD 0 []).length % 3 ≠ 0 ∨
            (seqs.getD 0 []).length % a.gap_len ≠ 0 then
          .error .lengthConstraint
        else if (seqs.getD 1 []).length % a.gap_len ≠ 0 then
          .error .lengthConstraint
        else .ok (.aligned names seqs)

/-- Counterexample to C7 as frozen: with `refs` empty, `rev` unset and a
two-sequence input whose second name is the empty string, `refs` equals
`names[1]` yet the driver leaves the pair unchanged (the reordering step
at `align_marginal.cc:53-56` is skipped entirely), instead of swapping
as the claim requires. -/
theorem driver_order_names1_cex :
    driver_order "" false ["a", ""] ([10, 20] : List ℕ) =
        .ok (["a", ""], [10, 20]) ∧
      ("" : String) = (["a", ""].getD 1 "") ∧
      (["a", ""], ([10, 20] : List ℕ)) ≠ (["", "a"], [20, 10]) :=
  ⟨rfl, rfl, by decide⟩

/-- C7 (amended): in the alignment driver, for every two-sequence input:
if `refs` equals `names[0]` the pair is unchanged; if `refs` equals
`names[1]` (but not `names[0]`) and the reordering step runs (`refs`
non-empty or `rev` set) the pair is swapped; if `refs` matches neither
name but `rev` is true the pair is swapped; and if `refs` is non-empty,
matches neither name, and `rev` is false, the operation fails with the
`InvalidInput` reference-not-found error. -/
theorem driver_order_spec {α : Type} (refs : String) (rev : Bool)
    (names : List String) (seqs : List α) (_h2 : names.length = 2) :
    (names.getD 0 "" = refs →
        driver_order refs rev names seqs = .ok (names, seqs)) ∧
      (names.getD 0 "" ≠ refs → names.getD 1 "" = refs →
        (refs ≠ "" ∨ rev = true) →
        driver_order refs rev names seqs = .ok (swap2 names, swap2 seqs)) ∧
      (names.getD 0 "" ≠ refs → names.getD 1 "" ≠ refs → rev = true →
        driver_order refs rev names seqs = .ok (swap2 names, swap2 seqs)) ∧
      (refs ≠ "" → names.getD 0 "" ≠ refs → names.getD 1 "" ≠ refs →
        rev = false →
        driver_order refs rev names seqs = .error .invalidInput) := by
  refine ⟨?_, ?_, ?_, ?_⟩
  · intro h0
    unfold driver_order order_ref
    split
    · simp [h0]
    · rfl
  · intro h0 h1 hg
    unfold driver_order order_ref
    rw [if_pos (by rcases hg with hg | hg <;> simp [hg])]
    rw [if_neg h0, if_pos h1]
  · intro h0 h1 hr
    unfold driver_order order_ref
    rw [if_pos (Or.inr hr)]
    rw [if_neg h0, if_neg h1, if_pos hr]
  · intro hne h0 h1 hr
    unfold driver_order order_ref
    rw [if_pos (Or.inl hne)]
    rw [if_neg h0, if_neg h1, if_neg (by simp [hr])]

/-- Witness for the amended C7, failure case: `refs = "z"` absent from
`["a", "b"]` with `rev` unset fails with `InvalidInput`. -/
theorem driver_order_spec_witness :
    driver_order "z" false ["a", "b"] ([10, 20] : List ℕ) =
      .error .invalidInput :=
  (driver_order_spec "z" false ["a", "b"] [10, 20] rfl).2.2.2
    (by decide) (by decide) (by decide) rfl

/-- The replay loop can fail only with `unmodeled`; the equal-length
`invalid_argument` is thrown before the loop starts. -/
theorem score_go_ne_invalidArg (P : SParams) (anc : List Nuc) :
    ∀ (cols : List (Sym × Sym)) (state i ngap : ℕ) (w : ℝ),
      score_go P anc cols state i ngap w ≠ .error .invalidArgument := by
  intro cols
  induction cols with
  | nil => intro state i ngap w; simp [score_go]
  | cons c rest ih =>
      intro state i ngap w
      obtain ⟨a, d⟩ := c
      match state with
      | 0 => cases a <;> cases d <;> simp [score_go, ih]
      | 1 => cases a <;> cases d <;> simp [score_go, ih]
      | (s + 2) => cases a <;> cases d <;> simp [score_go, ih]

/-- Scoring fails with the equal-length error exactly when the two
aligned strings differ in length. -/
theorem alignment_score_invalidArg_iff (P : SParams) (s0 s1 : List Sym) :
    alignment_score P s0 s1 = .error .invalidArgument ↔
      s0.length ≠ s1.length := by
  unfold alignment_score
  split
  · simp [*]
  · simp only [*]
    simpa using score_go_ne_invalidArg P (eraseGaps s0) (s0.zip s1) 0 0 0 0

/-- The reordering step errors only with `invalidInput`. -/
theorem driver_order_error {α : Type} (refs : String) (rev : Bool)
    (names : List String) (seqs : List α) (e : AlnErr)
    (h : driver_order refs rev names seqs = .error e) :
    e = .invalidInput := by
  unfold driver_order order_ref at h
  split at h
  · split at h
    · exact absurd h (by simp)
    · split at h
      · exact absurd h (by simp)
      · split at h
        · exact absurd h (by simp)
        · simpa using h.symm
  · exact absurd h (by simp)

/-- A successful reordering step returns the input pair or its swap. -/
theorem driver_order_ok {α : Type} (refs : String) (rev : Bool)
    (names : List String) (seqs : List α) (ns : List String) (ss : List α)
    (h : driver_order refs rev names seqs = .ok (ns, ss)) :
    (ns = names ∧ ss = seqs) ∨ (ns = swap2 names ∧ ss = swap2 seqs) := by
  unfold driver_order order_ref at h
  split at h
  · split at h
    · left; have := h.symm; simp at this; exact ⟨this.1, this.2⟩
    · split at h
      · right; have := h.symm; simp at this; exact ⟨this.1, this.2⟩
      · split at h
        · right; have := h.symm; simp at this; exact ⟨this.1, this.2⟩
        · exact absurd h (by simp)
  · left; have := h.symm; simp at this; exact ⟨this.1, this.2⟩

/-- `swap2` on a two-element list swaps the two `getD` reads, so
equality of the two sequence lengths is invariant under it. -/
theorem swap2_length_eq {α : Type} (seqs : List (List α))
    (hq : seqs.length = 2) :
    (((swap2 seqs).getD 0 []).length = ((swap2 seqs).getD 1 []).length) ↔
      ((seqs.getD 0 []).length = (seqs.getD 1 []).length) := by
  match seqs, hq with
  | [x, y], _ => simp [swap2]; omega

/-- C9: when the `score` flag is set, `marg_alignment` scores the
replayed pair and returns before the sequence-length validation of
`align_marginal.cc:64-75`, so a `LengthConstraint` error occurs in score
mode exactly when the two aligned strings differ in length (and the
reference was resolved); in particular a pair whose ungapped reference
length is not a multiple of 3 or of the gap unit is scored without a
`LengthConstraint` error. -/
theorem marg_alignment_score_mode (P : SParams) (a : AlnIn)
    (hs : a.score = true) (hn : a.names.length = 2)
    (hq : a.seqs.length = 2) :
    marg_alignment P a = .error .lengthConstraint ↔
      ((a.seqs.getD 0 []).length ≠ (a.seqs.getD 1 []).length ∧
        driver_order a.refs a.rev a.names a.seqs ≠ .error .invalidInput) := by
  unfold marg_alignment
  rw [if_neg (by omega)]
  rcases hdo : driver_order a.refs a.rev a.names a.seqs with e | ⟨ns, ss⟩
  · have he := driver_order_error _ _ _ _ _ hdo
    subst he
    simp
  · have hcase := driver_order_ok _ _ _ _ _ _ hdo
    have hlen : ((ss.getD 0 []).length = (ss.getD 1 []).length) ↔
        ((a.seqs.getD 0 []).length = (a.seqs.getD 1 []).length) := by
      rcases hcase with ⟨-, h⟩ | ⟨-, h⟩
      · rw [h]
      · rw [h]; exact swap2_length_eq a.seqs hq
    simp only [hs, if_true]
    by_cases hL : (ss.getD 0 []).length = (ss.getD 1 []).length
    · have hok : ¬(alignment_score P (ss.getD 0 []) (ss.getD 1 []) =
          .error .invalidArgument) := by
        rw [alignment_score_invalidArg_iff]
        simpa using hL
      rcases hsc : alignment_score P (ss.getD 0 []) (ss.getD 1 []) with
        err | w
      · match err with
        | .invalidArgument => exact absurd hsc hok
        | .unmodeled =>
            simp only [iff_def]
            constructor
            · intro hco; exact absurd hco (by simp)
            · rintro ⟨hc, -⟩; exact absurd (hlen.mp hL) hc
      · simp only [iff_def]
        constructor
        · intro hco; exact absurd hco (by simp)
        · rintro ⟨hc, -⟩; exact absurd (hlen.mp hL) hc
    · have hbad : alignment_score P (ss.getD 0 []) (ss.getD 1 []) =
          .error .invalidArgument := by
        rw [alignment_score_invalidArg_iff]
        simpa using hL
      rw [hbad]
      simp only [iff_def]
      constructor
      · rintro -
        exact ⟨fun hc => hL (hlen.mpr hc), by simp⟩
      · exact fun _ => trivial

/-- Witness for C9: a two-sequence input in score mode whose ungapped
reference length is 2 (not a multiple of 3) but whose aligned strings
have equal length 3 is accepted without a `LengthConstraint` error. -/
theorem marg_alignment_score_mode_witness :
    marg_alignment ⟨0, 0, 0, 0, fun _ => 0, fun _ _ => 0⟩
        ⟨["1", "2"], [[.nt 0, .nt 1, .gp], [.nt 0, .nt 1, .nt 2]],
          "", false, true, 1⟩ ≠
      .error .lengthConstraint := by
  intro h
  have := (marg_alignment_score_mode ⟨0, 0, 0, 0, fun _ => 0, fun _ _ => 0⟩
    ⟨["1", "2"], [[.nt 0, .nt 1, .gp], [.nt 0, .nt 1, .nt 2]],
      "", false, true, 1⟩ rfl rfl rfl).mp h
  simp at this

/-- Base (0=A,1=C,2=G,3=T) of codon `i` at position `p`, via the bit
masks of `mutation_coati.cc:70-86`: `(i & 48) >> 4`, `(i & 12) >> 2`,
`i & 3`. -/
def cbase (p : Fin 3) (i : Fin 64) : ℕ :=
  match p with
  | 0 => (i.val &&& 48) >>> 4
  | 1 => (i.val &&& 12) >>> 2
  | 2 => i.val &&& 3

/-- Modelled from the spec: `coati::utils::cod_distance` (`utils.cc`, not
part of the verified tree) — the number of nucleotide positions at which
two codons differ (spec §3 "Codon distance"). -/
def cod_distance (i j : Fin 64) : ℕ :=
  (if cbase 0 i = cbase 0 j then 0 else 1) +
    (if cbase 1 i = cbase 1 j then 0 else 1) +
    (if cbase 2 i = cbase 2 j then 0 else 1)

/-- The `(x, y)` pair selected by the if-chain of
`mutation_coati.cc:98-107`: the bases of `i` and `j` at the first
differing codon position.  When the codons are equal in all three
positions the C++ code would keep the stale `x, y` of a previous
iteration; that branch is unreachable in the context of its one caller
(codon distance exactly 1) and is mapped to `(0, 0)`. -/
def mg94_xy (i j : Fin 64) : ℕ × ℕ :=
  if i.val &&& 48 ≠ j.val &&& 48 then
    ((i.val &&& 48) >>> 4, (j.val &&& 48) >>> 4)
  else if i.val &&& 12 ≠ j.val &&& 12 then
    ((i.val &&& 12) >>> 2, (j.val &&& 12) >>> 2)
  else if i.val &&& 3 ≠ j.val &&& 3 then
    (i.val &&& 3, j.val &&& 3)
  else (0, 0)

/-- Off-diagonal entry of the MG94 rate matrix built by the loop of
`mutation_coati.cc:88-112` (before the diagonal, normalization and
branch-length scaling): 0 on the diagonal and at codon distance > 1,
otherwise `w · nuc_q(x, y)` with `w = 1` for codons in the same
amino-acid group and `w = ω` otherwise.  `nucq` is the 4×4 nucleotide
rate matrix chosen at lines 53-63 (GTR or Yang 1994) and `ag` the
`amino_group_table` of `utils.cc` (not part of the verified tree), both
kept as parameters. -/
def mg94_Q_off (omega : ℚ) (nucq : ℕ → ℕ → ℚ) (ag : Fin 64 → ℕ)
    (i j : Fin 64) : ℚ :=
  if i = j then 0
  else if 1 < cod_distance i j then 0
  else (if ag i = ag j then 1 else omega) *
    nucq (mg94_xy i j).1 (mg94_xy i j).2

/-- `rowSum` of `mutation_coati.cc:87,111`: the sum of the off-diagonal
entries of row `i` (the diagonal contributes 0 at the time it is
added). -/
def mg94_rowSum (omega : ℚ) (nucq : ℕ → ℕ → ℚ) (ag : Fin 64 → ℕ)
    (i : Fin 64) : ℚ :=
  ∑ j : Fin 64, mg94_Q_off omega nucq ag i j

/-- The intermediate MG94 rate matrix with its diagonal
`Q(i,i) = -rowSum` (`mutation_coati.cc:113`). -/
def mg94_Q (omega : ℚ) (nucq : ℕ → ℕ → ℚ) (ag : Fin 64 → ℕ)
    (i j : Fin 64) : ℚ :=
  if i = j then -(mg94_rowSum omega nucq ag i)
  else mg94_Q_off omega nucq ag i j

/-- The codon stationary weight `Pi[i] = π_{b1}·π_{b2}·π_{b3}`
(`mutation_coati.cc:85-86`). -/
def codPi (pi : ℕ → ℚ) (i : Fin 64) : ℚ :=
  pi (cbase 0 i) * pi (cbase 1 i) * pi (cbase 2 i)

/-- The normalization constant `d = Σ_i Pi[i]·rowSum_i`
(`mutation_coati.cc:114`). -/
def mg94_d (omega : ℚ) (nucq : ℕ → ℕ → ℚ) (ag : Fin 64 → ℕ)
    (pi : ℕ → ℚ) : ℚ :=
  ∑ i : Fin 64, codPi pi i * mg94_rowSum omega nucq ag i

/-- Errors of the MG94 construction: `outOfRange` models the
`std::out_of_range` for a non-positive branch length
(`mutation_coati.cc:47-49`), `invalidArgument` the
`std::invalid_argument` of `gtr_q` for a sigma outside [0,1]
(`mutation_coati.cc:222-225`). -/
inductive MErr where
  | outOfRange : MErr
  | invalidArgument : MErr
deriving DecidableEq, Repr

/-- The symmetric sigma table assigned at `mutation_coati.cc:230-235`
(`sigma_AC, sigma_AG, sigma_AT, sigma_GC, sigma_CT, sigma_GT`). -/
def gtr_sig (sigma : Fin 6 → ℚ) (i j : Fin 4) : ℚ :=
  match i.val, j.val with
  | 0, 1 => sigma 0
  | 1, 0 => sigma 0
  | 0, 2 => sigma 1
  | 2, 0 => sigma 1
  | 0, 3 => sigma 2
  | 3, 0 => sigma 2
  | 1, 2 => sigma 3
  | 2, 1 => sigma 3
  | 1, 3 => sigma 4
  | 3, 1 => sigma 4
  | 2, 3 => sigma 5
  | 3, 2 => sigma 5
  | _, _ => 0

/-- `coati::gtr_q` (`mutation_coati.cc:214-251`): reject any sigma
outside [0,1], scale column `j` by `pi[j]`, and set each diagonal entry
to minus the sum of the other entries of its row. -/
def gtr_q (pi : ℕ → ℚ) (sigma : Fin 6 → ℚ) :
    Except MErr (Fin 4 → Fin 4 → ℚ) :=
  if (List.finRange 6).any
      (fun k => decide (sigma k < 0) || decide (1 < sigma k)) then
    .error .invalidArgument
  else
    .ok (fun i j =>
      if i = j then
        -(∑ l : Fin 4, if l = i then 0 else gtr_sig sigma i l * pi l)
      else gtr_sig sigma i j * pi j)

/-- The Yang (1994) nucleotide rate matrix hard-coded at
`mutation_coati.cc:59-62`. -/
def yang94 (i j : Fin 4) : ℚ :=
  match i.val, j.val with
  | 0, 0 => -0.818
  | 0, 1 => 0.132
  | 0, 2 => 0.586
  | 0, 3 => 0.1
  | 1, 0 => 0.221
  | 1, 1 => -1.349
  | 1, 2 => 0.231
  | 1, 3 => 0.897
  | 2, 0 => 0.909
  | 2, 1 => 0.215
  | 2, 2 => -1.322
  | 2, 3 => 0.198
  | 3, 0 => 0.1
  | 3, 1 => 0.537
  | 3, 2 => 0.128
  | _, _ => -0.765

/-- Lift a 4×4 table to the `int`-indexed access of the C++ code
(indices produced by the mask arithmetic are always < 4). -/
def nucAt (nq : Fin 4 → Fin 4 → ℚ) (x y : ℕ) : ℚ :=
  if hx : x < 4 then if hy : y < 4 then nq ⟨x, hx⟩ ⟨y, hy⟩ else 0 else 0

/-- `coati::mg94_p` (`mutation_coati.cc:44-126`) up to, but excluding,
the final matrix exponential: reject a non-positive branch length, pick
the nucleotide rate matrix (GTR when any sigma is positive, otherwise
Yang 1994, validating sigma inside `gtr_q`), build the MG94 rate matrix
`mg94_Q`, normalize by `d` and scale by the branch length.  The final
`Q.exp()` of line 121 is a total Eigen operation that cannot throw and
is performed after every validation, so the construction's error
behaviour and the intermediate rate matrix are fully captured here; the
exponential itself is outside the model (claim C2 takes the resulting
row-stochastic `P` as an arbitrary input). -/
def mg94_p_pre (br_len omega : ℚ) (pi : ℕ → ℚ) (sigma : Fin 6 → ℚ)
    (ag : Fin 64 → ℕ) : Except MErr (Fin 64 → Fin 64 → ℚ) :=
  if br_len ≤ 0 then .error .outOfRange
  else
    match (if (List.finRange 6).any (fun k => decide (0 < sigma k)) then
        gtr_q pi sigma
      else .ok yang94) with
    | .error e => .error e
    | .ok nq =>
        .ok (fun i j =>
          mg94_Q omega (nucAt nq) ag i j /
            mg94_d omega (nucAt nq) ag pi * br_len)

/-- `Except` success as a Boolean, for stating that a construction
completes without throwing. -/
def exceptOk {ε α : Type} (e : Except ε α) : Bool :=
  match e with
  | .ok _ => true
  | .error _ => false

/-- Equality of the three masked fields is equality of the three
bases. -/
theorem mask_base_iff (i j : Fin 64) :
    ((i.val &&& 48 = j.val &&& 48) ↔ cbase 0 i = cbase 0 j) ∧
      ((i.val &&& 12 = j.val &&& 12) ↔ cbase 1 i = cbase 1 j) ∧
      ((i.val &&& 3 = j.val &&& 3) ↔ cbase 2 i = cbase 2 j) := by
  revert i j
  decide

/-- Codons are equal iff their three bases are equal. -/
theorem cbase_ext (i j : Fin 64)
    (h0 : cbase 0 i = cbase 0 j) (h1 : cbase 1 i = cbase 1 j)
    (h2 : cbase 2 i = cbase 2 j) : i = j := by
  revert i j
  decide

/-- C3: in the intermediate MG94 rate matrix, every ordered pair of
distinct codons at codon distance > 1 has rate 0, and every pair at
distance exactly 1 has rate `w · nuc_rate(b_i, b_j)` where `(b_i, b_j)`
are the bases at the unique differing position and `w = 1` if the codons
share an amino-acid group, `w = ω` otherwise.  Quantified over `ω`, the
nucleotide rate matrix and the amino-group table, it covers every call
of `mg94_p` (any branch length, frequencies and sigma). -/
theorem mg94_Q_structure (omega : ℚ) (nucq : ℕ → ℕ → ℚ)
    (ag : Fin 64 → ℕ) (i j : Fin 64) (hij : i ≠ j) :
    (1 < cod_distance i j → mg94_Q omega nucq ag i j = 0) ∧
      (cod_distance i j = 1 → ∃ p : Fin 3,
        cbase p i ≠ cbase p j ∧
          (∀ q : Fin 3, q ≠ p → cbase q i = cbase q j) ∧
          mg94_Q omega nucq ag i j =
            (if ag i = ag j then 1 else omega) *
              nucq (cbase p i) (cbase p j)) := by
  have hmask := mask_base_iff i j
  constructor
  · intro hgt
    simp [mg94_Q, mg94_Q_off, hij, hgt]
  · intro h1
    have hQ : mg94_Q omega nucq ag i j =
        (if ag i = ag j then 1 else omega) *
          nucq (mg94_xy i j).1 (mg94_xy i j).2 := by
      simp [mg94_Q, mg94_Q_off, hij, h1]
    by_cases hb0 : cbase 0 i = cbase 0 j
    · by_cases hb1 : cbase 1 i = cbase 1 j
      · have hb2 : cbase 2 i ≠ cbase 2 j := by
          intro hb2
          exact hij (cbase_ext i j hb0 hb1 hb2)
        refine ⟨2, hb2, ?_, ?_⟩
        · intro q hq
          match q with
          | 0 => exact hb0
          | 1 => exact hb1
          | 2 => exact absurd rfl hq
        · rw [hQ]
          have hxy : mg94_xy i j = (cbase 2 i, cbase 2 j) := by
            unfold mg94_xy
            rw [if_neg (by simpa using hmask.1.mpr hb0),
              if_neg (by simpa using hmask.2.1.mpr hb1),
              if_pos (by simpa using hmask.2.2.not.mpr hb2)]
            simp [cbase]
          rw [hxy]
      · have hb2 : cbase 2 i = cbase 2 j := by
          unfold cod_distance at h1
          rw [if_pos hb0, if_neg hb1] at h1
          by_contra hb2
          rw [if_neg hb2] at h1
          omega
        refine ⟨1, hb1, ?_, ?_⟩
        · intro q hq
          match q with
          | 0 => exact hb0
          | 1 => exact absurd rfl hq
          | 2 => exact hb2
        · rw [hQ]
          have hxy : mg94_xy i j = (cbase 1 i, cbase 1 j) := by
            unfold mg94_xy
            rw [if_neg (by simpa using hmask.1.mpr hb0),
              if_pos (by simpa using hmask.2.1.not.mpr hb1)]
            simp [cbase]
          rw [hxy]
    · have hb1 : cbase 1 i = cbase 1 j := by
        unfold cod_distance at h1
        rw [if_neg hb0] at h1
        by_contra hb1
        rw [if_neg hb1] at h1
        split at h1 <;> omega
      have hb2 : cbase 2 i = cbase 2 j := by
        unfold cod_distance at h1
        rw [if_neg hb0, if_pos hb1] at h1
        by_contra hb2
        rw [if_neg hb2] at h1
        omega
      refine ⟨0, hb0, ?_, ?_⟩
      · intro q hq
        match q with
        | 0 => exact absurd rfl hq
        | 1 => exact hb1
        | 2 => exact hb2
      · rw [hQ]
        have hxy : mg94_xy i j = (cbase 0 i, cbase 0 j) := by
          unfold mg94_xy
          rw [if_pos (by simpa using hmask.1.not.mpr hb0)]
          simp [cbase]
        rw [hxy]

/-- Witness for C3 at codons 0 (AAA) and 1 (AAC), distance 1, third
position A→C, with an all-synonymous group table (`w = 1`) and
`nucq = yang94`. -/
theorem mg94_Q_structure_witness :
    cod_distance 0 1 = 1 ∧
      mg94_Q 2 (nucAt yang94) (fun _ => 0) 0 1 =
        (if (0 : ℕ) = 0 then 1 else 2) * nucAt yang94 (cbase 2 0) (cbase 2 1) := by
  constructor
  · decide
  · obtain ⟨p, hp, hother, hval⟩ :=
      (mg94_Q_structure 2 (nucAt yang94) (fun _ => 0) 0 1
        (by decide)).2 (by decide)
    have hp2 : p = 2 := by
      have h0 : cbase 0 (0 : Fin 64) = cbase 0 (1 : Fin 64) := by decide
      have h1 : cbase 1 (0 : Fin 64) = cbase 1 (1 : Fin 64) := by decide
      match p with
      | 0 => exact absurd h0 hp
      | 1 => exact absurd h1 hp
      | 2 => rfl
    subst hp2
    simpa using hval

/-- Counterexample to C5: with branch length 1 > 0, all sigma 0 (valid)
and frequencies π = (1,1,1,1), whose sum 4 misses 1 by far more than
1e-6, `mg94_p` completes successfully — it performs no validation of π
(`mutation_coati.cc:44-63` checks only the branch length and, inside
`gtr_q`, the sigma range). -/
theorem mg94_p_no_pi_check_cex :
    exceptOk (mg94_p_pre 1 1 (fun _ => 1) (fun _ => 0) (fun _ => 0)) =
        true ∧
      ¬(|((1 : ℚ) + 1 + 1 + 1) - 1| ≤ 1 / 1000000) := by
  constructor
  · rfl
  · norm_num

/-- C5 (amended): for every branch length t > 0 and sigma vector with
all components inside [0,1], the MG94 construction succeeds for every
frequency vector π — π is never validated, so a π not summing to 1
within 1e-6 does not raise `InvalidArgument` (only t ≤ 0 raises
`OutOfRange` and a sigma outside [0,1] raises `InvalidArgument`). -/
theorem mg94_p_pre_ok (t omega : ℚ) (pi : ℕ → ℚ) (sigma : Fin 6 → ℚ)
    (ag : Fin 64 → ℕ) (ht : 0 < t)
    (hsig : ∀ k, 0 ≤ sigma k ∧ sigma k ≤ 1) :
    exceptOk (mg94_p_pre t omega pi sigma ag) = true := by
  unfold mg94_p_pre
  rw [if_neg (by simpa using ht)]
  have hg : ∀ z, gtr_q pi sigma = Except.error z → False := by
    intro z hz
    unfold gtr_q at hz
    split at hz
    · rename_i hcond
      simp only [List.any_eq_true, Bool.or_eq_true,
        decide_eq_true_eq] at hcond
      obtain ⟨k, -, hk⟩ := hcond
      rcases hk with hk | hk
      · exact absurd hk (not_lt.mpr (hsig k).1)
      · exact absurd hk (not_lt.mpr (hsig k).2)
    · exact absurd hz (by simp)
  split
  · rename_i e heq
    split at heq
    · exact absurd heq (fun h => hg e h)
    · exact absurd heq (by simp)
  · rfl

/-- Witness for the amended C5: t = 1, ω = 2, π ≡ 5 (sum 20, far from
1), sigma ≡ 1/2 — the construction succeeds. -/
theorem mg94_p_pre_ok_witness :
    exceptOk (mg94_p_pre 1 2 (fun _ => 5) (fun _ => 1 / 2)
      (fun _ => 0)) = true :=
  mg94_p_pre_ok 1 2 (fun _ => 5) (fun _ => 1 / 2) (fun _ => 0)
    (by norm_num) (fun k => by norm_num)

/-- The inner accumulation loops of `marginal_p`
(`mutation_coati.cc:160-177`): the summed probability of all codons
whose base at position `pos` equals `nuc`, using the same mask tests as
the source (`(i & 48) >> 4`, `(i & 12) >> 2`, `i & 3`). -/
def marg_sum (P : Fin 64 → Fin 64 → ℝ) (cod : Fin 64) (pos : Fin 3)
    (nuc : Fin 4) : ℝ :=
  match pos with
  | 0 => ∑ i : Fin 64, if (i.val &&& 48) >>> 4 = nuc.val then P cod i else 0
  | 1 => ∑ i : Fin 64, if (i.val &&& 12) >>> 2 = nuc.val then P cod i else 0
  | 2 => ∑ i : Fin 64, if i.val &&& 3 = nuc.val then P cod i else 0

/-- `::logf` on nonnegative arguments, in `EReal` so that the IEEE value
`logf 0 = -inf` is represented as `⊥`.  Negative arguments yield NaN in
C and are outside the modelled domain (every claim restricts to
nonnegative arguments); they are also mapped to `⊥`. -/
noncomputable def logE (x : ℝ) : EReal :=
  if x ≤ 0 then ⊥ else ((Real.log x : ℝ) : EReal)

/-- `::expf` on the values `logE` can produce: `expf(-inf) = 0`; `⊤` is
unreachable from `logE` and is mapped to 0. -/
noncomputable def expE (x : EReal) : ℝ :=
  if x = ⊥ then 0 else if x = ⊤ then 0 else Real.exp x.toReal

/-- `coati::marginal_p` (`mutation_coati.cc:148-186`): the entry stored
at row `cod·3 + pos`, column `nuc` of the 192×4 table is
`logf(marg / pi[nuc])` with `marg` the accumulated probability mass.
The table is represented by its index triple `(cod, pos, nuc)`. -/
noncomputable def marginal_p (P : Fin 64 → Fin 64 → ℝ) (pi : ℕ → ℝ)
    (cod : Fin 64) (pos : Fin 3) (nuc : Fin 4) : EReal :=
  logE (marg_sum P cod pos nuc / pi nuc.val)

/-- The mask arithmetic always produces a base index below 4. -/
theorem mask_lt_4 (i : Fin 64) :
    (i.val &&& 48) >>> 4 < 4 ∧ (i.val &&& 12) >>> 2 < 4 ∧
      i.val &&& 3 < 4 := by
  revert i
  decide

/-- Summing an indicator over the four nucleotides hits the unique one
matching a base index below 4. -/
theorem sum_fin4_ite (m : ℕ) (hm : m < 4) (v : ℝ) :
    (∑ nuc : Fin 4, if m = nuc.val then v else 0) = v := by
  have h0 : ((0 : Fin 4) : ℕ) = 0 := rfl
  have h1 : ((1 : Fin 4) : ℕ) = 1 := rfl
  have h2 : ((2 : Fin 4) : ℕ) = 2 := rfl
  have h3 : ((3 : Fin 4) : ℕ) = 3 := rfl
  rw [Fin.sum_univ_four, h0, h1, h2, h3]
  interval_cases m <;> norm_num

/-- Summing the marginal masses over the four nucleotides recovers the
full row sum of `P`. -/
theorem marg_sum_total (P : Fin 64 → Fin 64 → ℝ) (cod : Fin 64)
    (pos : Fin 3) :
    (∑ nuc : Fin 4, marg_sum P cod pos nuc) = ∑ i : Fin 64, P cod i := by
  match pos with
  | 0 =>
      show (∑ nuc : Fin 4, ∑ i : Fin 64,
        if (i.val &&& 48) >>> 4 = nuc.val then P cod i else 0) = _
      rw [Finset.sum_comm]
      exact Finset.sum_congr rfl fun i _ =>
        sum_fin4_ite _ (mask_lt_4 i).1 _
  | 1 =>
      show (∑ nuc : Fin 4, ∑ i : Fin 64,
        if (i.val &&& 12) >>> 2 = nuc.val then P cod i else 0) = _
      rw [Finset.sum_comm]
      exact Finset.sum_congr rfl fun i _ =>
        sum_fin4_ite _ (mask_lt_4 i).2.1 _
  | 2 =>
      show (∑ nuc : Fin 4, ∑ i : Fin 64,
        if i.val &&& 3 = nuc.val then P cod i else 0) = _
      rw [Finset.sum_comm]
      exact Finset.sum_congr rfl fun i _ =>
        sum_fin4_ite _ (mask_lt_4 i).2.2 _

/-- The marginal masses are nonnegative when `P` is. -/
theorem marg_sum_nonneg (P : Fin 64 → Fin 64 → ℝ) (cod : Fin 64)
    (pos : Fin 3) (nuc : Fin 4) (hP : ∀ i j, 0 ≤ P i j) :
    0 ≤ marg_sum P cod pos nuc := by
  match pos with
  | 0 =>
      show (0 : ℝ) ≤ ∑ i : Fin 64,
        if (i.val &&& 48) >>> 4 = nuc.val then P cod i else 0
      refine Finset.sum_nonneg fun i _ => ?_
      split
      · exact hP cod i
      · exact le_refl 0
  | 1 =>
      show (0 : ℝ) ≤ ∑ i : Fin 64,
        if (i.val &&& 12) >>> 2 = nuc.val then P cod i else 0
      refine Finset.sum_nonneg fun i _ => ?_
      split
      · exact hP cod i
      · exact le_refl 0
  | 2 =>
      show (0 : ℝ) ≤ ∑ i : Fin 64,
        if i.val &&& 3 = nuc.val then P cod i else 0
      refine Finset.sum_nonneg fun i _ => ?_
      split
      · exact hP cod i
      · exact le_refl 0

/-- Undoing the stored logarithm recovers the marginal mass:
`pi_n · expf(M[c,p,n]) = marg`, both when `marg > 0` (exp∘log) and when
`marg = 0` (`expf(-inf) = 0`). -/
theorem pi_expE_marginal (P : Fin 64 → Fin 64 → ℝ) (pi : ℕ → ℝ)
    (cod : Fin 64) (pos : Fin 3) (nuc : Fin 4)
    (hP : ∀ i j, 0 ≤ P i j) (hpi : 0 < pi nuc.val) :
    pi nuc.val * expE (marginal_p P pi cod pos nuc) =
      marg_sum P cod pos nuc := by
  have hm := marg_sum_nonneg P cod pos nuc hP
  rcases eq_or_lt_of_le hm with hz | hpos
  · rw [marginal_p, ← hz]
    norm_num
    rw [logE]
    norm_num [expE]
  · have harg : 0 < marg_sum P cod pos nuc / pi nuc.val :=
      div_pos hpos hpi
    rw [marginal_p, logE, if_neg (not_le.mpr harg), expE,
      if_neg (EReal.coe_ne_bot _), if_neg (EReal.coe_ne_top _),
      EReal.toReal_coe, Real.exp_log harg]
    field_simp

/-- C2: for every row-stochastic 64×64 matrix `P` (nonnegative entries,
each row summing to 1) and every positive frequency vector `pi`, the
marginal table satisfies `Σ_n pi_n · exp(M[c,p,n]) = 1` (within the
claimed 1e-6 tolerance; the identity is exact in real arithmetic) for
every codon `c` and phase `p`. -/
theorem marginal_p_sum_one (P : Fin 64 → Fin 64 → ℝ) (pi : ℕ → ℝ)
    (hP : ∀ i j, 0 ≤ P i j) (hrow : ∀ i, (∑ j : Fin 64, P i j) = 1)
    (hpi : ∀ n, n < 4 → 0 < pi n) (cod : Fin 64) (pos : Fin 3) :
    |(∑ nuc : Fin 4, pi nuc.val * expE (marginal_p P pi cod pos nuc)) -
        1| ≤ 1 / 1000000 := by
  have hsum : (∑ nuc : Fin 4,
      pi nuc.val * expE (marginal_p P pi cod pos nuc)) = 1 := by
    rw [Finset.sum_congr rfl fun nuc _ =>
      pi_expE_marginal P pi cod pos nuc hP (hpi nuc.val nuc.isLt)]
    rw [marg_sum_total]
    exact hrow cod
  rw [hsum]
  norm_num

/-- Witness for C2 at the identity matrix (row-stochastic, with zero
entries) and uniform frequencies. -/
theorem marginal_p_sum_one_witness :
    |(∑ nuc : Fin 4, (fun _ : ℕ => (1 / 4 : ℝ)) nuc.val *
        expE (marginal_p (fun i j => if i = j then 1 else 0)
          (fun _ => 1 / 4) 0 0 nuc)) - 1| ≤ 1 / 1000000 :=
  marginal_p_sum_one (fun i j => if i = j then 1 else 0) (fun _ => 1 / 4)
    (fun i j => by by_cases h : i = j <;> simp [h])
    (fun i => by simp)
    (fun n _ => by norm_num) 0 0

/-- Counterexample to C6: the identity matrix is row-stochastic (a
legitimate substitution matrix, e.g. the CSV override with an all-zero
rate matrix yields it), yet the marginal entry at codon AAA, phase 0,
nucleotide C is `logf(0) = -inf` — not a finite value: `marginal_p`
applies `logf` with no clamping (`mutation_coati.cc:178`). -/
theorem marginal_p_neg_inf_cex :
    (∀ i : Fin 64,
        (∑ j : Fin 64, (if i = j then (1 : ℝ) else 0)) = 1) ∧
      marginal_p (fun i j => if i = j then (1 : ℝ) else 0)
        (fun _ => 1 / 4) 0 0 1 = ⊥ := by
  constructor
  · intro i; simp
  · have hm : marg_sum (fun i j => if i = j then (1 : ℝ) else 0)
        0 0 1 = 0 := by
      show (∑ i : Fin 64, if (i.val &&& 48) >>> 4 = ((1 : Fin 4) : ℕ)
        then (if (0 : Fin 64) = i then (1 : ℝ) else 0) else 0) = 0
      refine Finset.sum_eq_zero fun i _ => ?_
      by_cases h : (0 : Fin 64) = i
      · subst h
        rw [if_neg (by decide)]
      · simp [h]
    rw [marginal_p, hm]
    norm_num [logE]

/-- C6 (amended): for every nonnegative `P` and positive `pi`, the
marginal entry `M[c,p,n]` is finite if and only if the accumulated
probability mass `Σ_{c' with phase-p base = n} P(c,c')` is positive;
when that mass is zero (possible for matrices with zero entries, such
as one supplied via the CSV override) the entry is `-inf`: `logf` is
applied without any largest-negative-value clamping. -/
theorem marginal_p_finite_iff (P : Fin 64 → Fin 64 → ℝ) (pi : ℕ → ℝ)
    (cod : Fin 64) (pos : Fin 3) (nuc : Fin 4)
    (hP : ∀ i j, 0 ≤ P i j) (hpi : 0 < pi nuc.val) :
    (marginal_p P pi cod pos nuc ≠ ⊥ ∧
        marginal_p P pi cod pos nuc ≠ ⊤) ↔
      0 < marg_sum P cod pos nuc := by
  have hm := marg_sum_nonneg P cod pos nuc hP
  rcases eq_or_lt_of_le hm with hz | hpos
  · have hbot : marginal_p P pi cod pos nuc = ⊥ := by
      rw [marginal_p, ← hz]
      norm_num [logE]
    rw [hbot, ← hz]
    simp
  · have hco : marginal_p P pi cod pos nuc =
        ((Real.log (marg_sum P cod pos nuc / pi nuc.val) : ℝ) :
          EReal) := by
      rw [marginal_p, logE, if_neg (not_le.mpr (div_pos hpos hpi))]
    rw [hco]
    simp [hpos]

/-- The identity matrix has positive marginal mass at codon AAA,
phase 0, nucleotide A. -/
theorem marg_sum_id_pos :
    (0 : ℝ) < marg_sum (fun i j => if i = j then (1 : ℝ) else 0)
      (0 : Fin 64) 0 0 := by
  have hsum : marg_sum (fun i j => if i = j then (1 : ℝ) else 0)
      (0 : Fin 64) 0 0 =
      ∑ i : Fin 64, if (0 : Fin 64) = i then (1 : ℝ) else 0 := by
    show (∑ i : Fin 64, if (i.val &&& 48) >>> 4 = ((0 : Fin 4) : ℕ)
      then (if (0 : Fin 64) = i then (1 : ℝ) else 0) else 0) = _
    refine Finset.sum_congr rfl fun i _ => ?_
    by_cases h : (0 : Fin 64) = i
    · subst h
      rw [if_pos (by decide)]
    · simp [h]
  rw [hsum]
  simp

/-- Witness for the amended C6: at the identity matrix the entry for
codon AAA, phase 0, nucleotide A has positive mass, hence is finite. -/
theorem marginal_p_finite_iff_witness :
    marginal_p (fun i j => if i = j then (1 : ℝ) else 0)
        (fun _ => 1 / 4) 0 0 0 ≠ ⊥ ∧
      marginal_p (fun i j => if i = j then (1 : ℝ) else 0)
        (fun _ => 1 / 4) 0 0 0 ≠ ⊤ :=
  (marginal_p_finite_iff (fun i j => if i = j then (1 : ℝ) else 0)
    (fun _ => 1 / 4) 0 0 0
    (fun i j => by by_cases h : i = j <;> simp [h])
    (by norm_num)).mpr marg_sum_id_pos

/-- `coati::tree::node_t` (tree.hpp): label, branch length, leaf flag
and parent index.  The `children` vector is filled only by `aln_order`
and plays no role in the claims about `parse_newick` and `reroot`, so it
is omitted. -/
structure node_t where
  label : String
  length : ℚ
  leaf_flag : Bool
  parent : ℕ
deriving DecidableEq, Repr

/-- `coati::tree::tree_t`: a flat vector of nodes. -/
abbrev tree_t := List node_t

/-- The value-initialized node (all fields defaulted), used as the
out-of-range read default of the accessors below; all theorems restrict
indices to the vector bounds. -/
def dnode : node_t := ⟨"", 0, false, 0⟩

/-- `tree[i]` as a total function. -/
def node_at (t : tree_t) (i : ℕ) : node_t := t[i]?.getD dnode

/-- `tree[i].parent`. -/
def parent_at (t : tree_t) (i : ℕ) : ℕ := (node_at t i).parent

/-- `tree[i].length`. -/
def brlen_at (t : tree_t) (i : ℕ) : ℚ := (node_at t i).length

/-- `tree[i].label`. -/
def label_at (t : tree_t) (i : ℕ) : String := (node_at t i).label

/-- `tree[i].is_leaf`. -/
def leaf_at (t : tree_t) (i : ℕ) : Bool := (node_at t i).leaf_flag

/-- In-place update of the node at index `i` (`tree[i].field = …`);
out-of-range writes are no-ops (never exercised by the theorems). -/
def upd_at (t : tree_t) (i : ℕ) (f : node_t → node_t) : tree_t :=
  match t[i]? with
  | some x => t.set i (f x)
  | none => t

/-- Reindexing applied when a child subtree is appended inside
`make_inode` (`tree.cc:75-78`): every parent pointer is shifted by the
insertion offset `n`. -/
def offset_nodes (n : ℕ) (l : tree_t) : tree_t :=
  l.map (fun x => {x with parent := x.parent + n})

/-- Abstract syntax of the newick grammar of `tree.cc:84-94`: a leaf
with label and branch length, or an internal node with a child list,
optional label (empty string when absent) and branch length (0 when
absent). -/
inductive NwkNode where
  | leaf : String → ℚ → NwkNode
  | inode : List NwkNode → String → ℚ → NwkNode

mutual

/-- The semantic actions of the newick parser (`tree.cc:60-81`):
`make_leaf` produces the single-node vector `{label, len, is_leaf=true}`
(parent defaulted to 0); `make_inode` starts from the single internal
node `{label, len}` and folds the children in with `make_forest`.  Every
tree produced by `parse_newick` is `make_tree` of the parsed syntax
tree. -/
def make_tree : NwkNode → tree_t
  | .leaf lb len => [⟨lb, len, true, 0⟩]
  | .inode cs lb len => make_forest cs [⟨lb, len, false, 0⟩]

/-- The loop over the child list in `make_inode` (`tree.cc:73-80`): for
each child subtree, record the current size `n`, append the child's
nodes with their parent pointers shifted by `n`, then point the child's
root (now at index `n`) at index 0. -/
def make_forest : List NwkNode → tree_t → tree_t
  | [], acc => acc
  | w :: ws, acc =>
      make_forest ws
        (upd_at (acc ++ offset_nodes acc.length (make_tree w)) acc.length
          (fun x => {x with parent := 0}))

end

/-- Well-formedness invariant of the flat tree representation: the node
at index 0 is its own parent (the root) and every later node points to
a strictly smaller index. -/
def wf_tree (t : tree_t) : Prop :=
  ∀ i < t.length, parent_at t i < i ∨ (i = 0 ∧ parent_at t i = 0)

instance (t : tree_t) : Decidable (wf_tree t) := by
  unfold wf_tree
  infer_instance

/-- The parent walk of `reroot` (`tree.cc:437-440`) and `distance_ref`
(`tree.cc:537-540`): repeatedly replace a node by its parent until a
node is its own parent.  The C++ `while` loop has no fuel; the
invariant proved below shows `t.length` steps always suffice on parsed
trees, so exhausting the fuel (`none`) models nontermination. -/
def climb (t : tree_t) : ℕ → ℕ → Option ℕ
  | 0, _ => none
  | fuel + 1, i =>
      if parent_at t i = i then some i else climb t fuel (parent_at t i)

/-- `upd_at` leaves every other index untouched. -/
theorem upd_at_getElem_ne (t : tree_t) (i : ℕ) (f : node_t → node_t)
    (j : ℕ) (hj : j ≠ i) : (upd_at t i f)[j]? = t[j]? := by
  unfold upd_at
  split
  · exact List.getElem?_set_ne (fun h => hj h.symm)
  · rfl

/-- `upd_at` preserves the vector length. -/
theorem upd_at_length (t : tree_t) (i : ℕ) (f : node_t → node_t) :
    (upd_at t i f).length = t.length := by
  unfold upd_at
  split
  · simp
  · rfl

/-- Reading back an in-range update. -/
theorem upd_at_node_at_eq (t : tree_t) (i : ℕ) (f : node_t → node_t)
    (hi : i < t.length) : node_at (upd_at t i f) i = f (node_at t i) := by
  have hg : t[i]? = some t[i] := List.getElem?_eq_getElem hi
  unfold upd_at
  rw [hg]
  show node_at (t.set i (f t[i])) i = f (node_at t i)
  unfold node_at
  rw [hg, List.getElem?_set_eq_of_lt _ (by simpa using hi)]
  rfl

/-- Parent pointers of an offset subtree. -/
theorem offset_parent_at (n : ℕ) (l : tree_t) (k : ℕ)
    (hk : k < l.length) :
    parent_at (offset_nodes n l) k = parent_at l k + n := by
  unfold parent_at node_at offset_nodes
  rw [List.getElem?_map, List.getElem?_eq_getElem hk]
  rfl

/-- Length of an offset subtree. -/
theorem offset_length (n : ℕ) (l : tree_t) :
    (offset_nodes n l).length = l.length := List.length_map _ _

/-- The invariant is preserved through the `make_inode` child loop:
folding any list of well-formed nonempty subtrees into a well-formed
nonempty accumulator yields a well-formed vector at least as long. -/
theorem make_forest_wf :
    ∀ (cs : List NwkNode) (acc : tree_t),
      (∀ w ∈ cs, wf_tree (make_tree w) ∧ 1 ≤ (make_tree w).length) →
      wf_tree acc → 1 ≤ acc.length →
      wf_tree (make_forest cs acc) ∧ 1 ≤ (make_forest cs acc).length := by
  intro cs
  induction cs with
  | nil =>
      intro acc _ hacc hlen
      exact ⟨hacc, hlen⟩
  | cons w ws ih =>
      intro acc hcs hacc hlen
      obtain ⟨hwfw, hlenw⟩ := hcs w (List.mem_cons_self w ws)
      show wf_tree (make_forest ws _) ∧ _
      set n := acc.length with hn
      set sub := offset_nodes n (make_tree w) with hsub
      set t2 := acc ++ sub with ht2
      set acc2 := upd_at t2 n (fun x => {x with parent := 0}) with hacc2
      have hlsub : sub.length = (make_tree w).length := offset_length _ _
      have hlt2 : t2.length = n + (make_tree w).length := by
        rw [ht2, List.length_append, hlsub]
      have hlacc2 : acc2.length = n + (make_tree w).length := by
        rw [hacc2, upd_at_length, hlt2]
      have hwf2 : wf_tree acc2 := by
        intro i hi
        rw [hlacc2] at hi
        rcases lt_trichotomy i n with hin | hin | hin
        · have hpi : parent_at acc2 i = parent_at acc i := by
            unfold parent_at node_at
            rw [hacc2, upd_at_getElem_ne _ _ _ _ (Nat.ne_of_lt hin), ht2,
              List.getElem?_append_left (by omega)]
          rw [hpi]
          exact hacc i (by omega)
        · left
          have hpi : parent_at acc2 i = 0 := by
            unfold parent_at
            rw [hin, hacc2, upd_at_node_at_eq _ _ _ (by omega)]
          rw [hpi]
          omega
        · have hk : i - n < (make_tree w).length := by omega
          have hnode : node_at acc2 i = node_at sub (i - n) := by
            unfold node_at
            rw [hacc2, upd_at_getElem_ne _ _ _ _ (Nat.ne_of_gt hin), ht2,
              List.getElem?_append_right (by omega)]
          have hpi : parent_at acc2 i =
              parent_at (make_tree w) (i - n) + n := by
            unfold parent_at
            rw [hnode, hsub]
            exact offset_parent_at n (make_tree w) (i - n) hk
          rcases hwfw (i - n) hk with hlt | ⟨hz, -⟩
          · left
            rw [hpi]
            omega
          · omega
      refine ih acc2 (fun w' hw' => hcs w' (List.mem_cons_of_mem _ hw'))
        hwf2 (by omega)

/-- Every flattened syntax tree is well-formed and nonempty. -/
theorem make_tree_wf_aux :
    ∀ (n : ℕ) (ast : NwkNode), sizeOf ast ≤ n →
      wf_tree (make_tree ast) ∧ 1 ≤ (make_tree ast).length := by
  intro n
  induction n with
  | zero =>
      intro ast h
      exact absurd h (by cases ast <;> simp_arith)
  | succ n ih =>
      intro ast h
      match ast with
      | .leaf lb len =>
          refine ⟨?_, by simp [make_tree]⟩
          intro i hi
          simp [make_tree] at hi
          right
          subst hi
          exact ⟨rfl, rfl⟩
      | .inode cs lb len =>
          have hsub : ∀ w ∈ cs,
              wf_tree (make_tree w) ∧ 1 ≤ (make_tree w).length := by
            intro w hw
            refine ih w ?_
            have h1 : sizeOf w < sizeOf cs := List.sizeOf_lt_of_mem hw
            have h2 : sizeOf cs < sizeOf (NwkNode.inode cs lb len) := by
              simp_arith
            omega
          have hroot : wf_tree [(⟨lb, len, false, 0⟩ : node_t)] := by
            intro i hi
            simp at hi
            right
            subst hi
            exact ⟨rfl, rfl⟩
          show wf_tree (make_forest cs _) ∧ 1 ≤ (make_forest cs _).length
          exact make_forest_wf cs [⟨lb, len, false, 0⟩] hsub hroot
            (by simp)

/-- Under the well-formedness invariant, the parent walk started below
the fuel bound always stops, at the root (index 0). -/
theorem climb_reaches_root (t : tree_t) (hwf : wf_tree t) :
    ∀ (i fuel : ℕ), i < t.length → i < fuel → climb t fuel i = some 0 := by
  intro i
  induction i using Nat.strong_induction_on with
  | _ i ih =>
      intro fuel hi hf
      match fuel, hf with
      | f + 1, _ =>
          by_cases h0 : i = 0
          · subst h0
            rcases hwf 0 hi with h | ⟨-, hp⟩
            · omega
            · simp [climb, hp]
          · have hpar : parent_at t i < i := by
              rcases hwf i hi with h | ⟨h0', -⟩
              · exact h
              · exact absurd h0' h0
            show (if parent_at t i = i then some i
              else climb t f (parent_at t i)) = some 0
            rw [if_neg (by omega)]
            exact ih (parent_at t i) hpar f (by omega) (by omega)

/-- C10: every tree produced by `parse_newick` (i.e. `make_tree` of any
parsed syntax tree, by the semantic actions of `tree.cc:60-81`)
satisfies: the node at index 0 is the root and its own parent, and
every node at index i > 0 has a parent index strictly less than i;
consequently every walk that repeatedly replaces a node by its parent
(as in `reroot` and `distance_ref`) terminates, at the root, within
`length` steps. -/
theorem parse_newick_wf (ast : NwkNode) :
    wf_tree (make_tree ast) ∧
      ∀ i < (make_tree ast).length,
        climb (make_tree ast) (make_tree ast).length i = some 0 := by
  obtain ⟨hwf, hlen⟩ := make_tree_wf_aux (sizeOf ast) ast (le_refl _)
  exact ⟨hwf, fun i hi => climb_reaches_root _ hwf i _ hi hi⟩

/-- Witness for C10 on the parsed tree of "(a:1,b:2);": a 3-node vector
whose walk from the last leaf reaches the root. -/
theorem parse_newick_wf_witness :
    wf_tree (make_tree (NwkNode.inode
        [NwkNode.leaf "a" 1, NwkNode.leaf "b" 2] "" 0)) ∧
      climb (make_tree (NwkNode.inode
          [NwkNode.leaf "a" 1, NwkNode.leaf "b" 2] "" 0)) 3 2 =
        some 0 := by
  obtain ⟨h1, h2⟩ := parse_newick_wf (NwkNode.inode
    [NwkNode.leaf "a" 1, NwkNode.leaf "b" 2] "" 0)
  exact ⟨h1, by
    have := h2 2 (by decide)
    simpa using this⟩

/-- `coati::tree::find_node` (`tree.cc:383-390`): index of the first
node whose label equals `name`, if any. -/
def find_node (t : tree_t) (name : String) : Option ℕ :=
  t.findIdx? (fun nd => nd.label == name)

/-- The ancestor-collection loop of `reroot` (`tree.cc:432-443`): from
`node` walk parents, collecting the visited nodes, until the current
root (its own parent), which is collected last. -/
def anc_chain (t : tree_t) : ℕ → ℕ → List ℕ
  | 0, node => [node]
  | fuel + 1, node =>
      if parent_at t node = node then [node]
      else node :: anc_chain t fuel (parent_at t node)

/-- The link-reversal loop of `reroot` (`tree.cc:445-448`), iterating
`i` downwards: `tree[ancs[i]].parent = ancs[i-1]` and
`tree[ancs[i]].length = tree[ancs[i-1]].length`, reading the not yet
rewritten entry at `ancs[i-1]`. -/
def reroot_loop (ancs : List ℕ) : ℕ → tree_t → tree_t
  | 0, t => t
  | i + 1, t =>
      reroot_loop ancs i
        (upd_at t (ancs.getD (i + 1) 0)
          (fun x => {x with parent := ancs.getD i 0,
                            length := brlen_at t (ancs.getD i 0)}))

/-- `coati::tree::reroot` (`tree.cc:422-455`): find the outgroup node
(else fail with the reused `InvalidInput` kind), collect the ancestors
of its parent (`newroot`), reverse the parent links along that path
transferring the edge lengths, and finally make `newroot` its own
parent with branch length 0. -/
def reroot (t : tree_t) (outgroup : String) : Except AlnErr tree_t :=
  match find_node t outgroup with
  | none => .error .invalidInput
  | some ref =>
      .ok (upd_at
        (reroot_loop (anc_chain t t.length (parent_at t ref))
          ((anc_chain t t.length (parent_at t ref)).length - 1) t)
        (parent_at t ref)
        (fun x => {x with parent := parent_at t ref, length := 0}))

/-- Out-of-range updates are no-ops. -/
theorem upd_at_oob (t : tree_t) (i : ℕ) (f : node_t → node_t)
    (hi : t.length ≤ i) : upd_at t i f = t := by
  unfold upd_at
  rw [List.getElem?_eq_none_iff.mpr hi]

/-- `upd_at` with a label-preserving update preserves every label. -/
theorem upd_at_label (t : tree_t) (i : ℕ) (f : node_t → node_t)
    (hf : ∀ x, (f x).label = x.label) (j : ℕ) :
    label_at (upd_at t i f) j = label_at t j := by
  by_cases hi : i < t.length
  · by_cases hj : j = i
    · subst hj
      unfold label_at
      rw [upd_at_node_at_eq _ _ _ hi, hf]
    · unfold label_at node_at
      rw [upd_at_getElem_ne _ _ _ _ hj]
  · rw [upd_at_oob _ _ _ (by omega)]

/-- `upd_at` with a leaf-flag-preserving update preserves every leaf
flag. -/
theorem upd_at_leaf (t : tree_t) (i : ℕ) (f : node_t → node_t)
    (hf : ∀ x, (f x).leaf_flag = x.leaf_flag) (j : ℕ) :
    leaf_at (upd_at t i f) j = leaf_at t j := by
  by_cases hi : i < t.length
  · by_cases hj : j = i
    · subst hj
      unfold leaf_at
      rw [upd_at_node_at_eq _ _ _ hi, hf]
    · unfold leaf_at node_at
      rw [upd_at_getElem_ne _ _ _ _ hj]
  · rw [upd_at_oob _ _ _ (by omega)]

/-- The reversal loop preserves the vector length. -/
theorem reroot_loop_length (ancs : List ℕ) :
    ∀ (i : ℕ) (t : tree_t), (reroot_loop ancs i t).length = t.length := by
  intro i
  induction i with
  | zero => intro t; rfl
  | succ i ih =>
      intro t
      show (reroot_loop ancs i _).length = _
      rw [ih, upd_at_length]

/-- The reversal loop never touches labels or leaf flags. -/
theorem reroot_loop_label (ancs : List ℕ) :
    ∀ (i : ℕ) (t : tree_t) (j : ℕ),
      label_at (reroot_loop ancs i t) j = label_at t j ∧
        leaf_at (reroot_loop ancs i t) j = leaf_at t j := by
  intro i
  induction i with
  | zero => intro t j; exact ⟨rfl, rfl⟩
  | succ i ih =>
      intro t j
      obtain ⟨h1, h2⟩ := ih (upd_at t (ancs.getD (i + 1) 0)
        (fun x => {x with parent := ancs.getD i 0,
                          length := brlen_at t (ancs.getD i 0)})) j
      constructor
      · show label_at (reroot_loop ancs i _) j = _
        rw [h1]
        exact upd_at_label t (ancs.getD (i + 1) 0)
          (fun x => {x with parent := ancs.getD i 0,
                            length := brlen_at t (ancs.getD i 0)})
          (fun x => rfl) j
      · show leaf_at (reroot_loop ancs i _) j = _
        rw [h2]
        exact upd_at_leaf t (ancs.getD (i + 1) 0)
          (fun x => {x with parent := ancs.getD i 0,
                            length := brlen_at t (ancs.getD i 0)})
          (fun x => rfl) j

/-- The reversal loop modifies only indices listed in `ancs`: any index
outside the ancestor path keeps its parent pointer and branch length. -/
theorem reroot_loop_frame (ancs : List ℕ) :
    ∀ (i : ℕ) (t : tree_t) (j : ℕ), i < ancs.length → j ∉ ancs →
      parent_at (reroot_loop ancs i t) j = parent_at t j ∧
        brlen_at (reroot_loop ancs i t) j = brlen_at t j := by
  intro i
  induction i with
  | zero => intro t j _ _; exact ⟨rfl, rfl⟩
  | succ i ih =>
      intro t j hi hj
      have hmem : ancs.getD (i + 1) 0 ∈ ancs := by
        rw [List.getD_eq_getElem ancs 0 hi]
        exact List.getElem_mem hi
      have hne : j ≠ ancs.getD (i + 1) 0 := fun h => hj (h ▸ hmem)
      obtain ⟨hp, hl⟩ := ih (upd_at t (ancs.getD (i + 1) 0)
        (fun x => {x with parent := ancs.getD i 0,
                          length := brlen_at t (ancs.getD i 0)})) j
        (by omega) hj
      constructor
      · show parent_at (reroot_loop ancs i _) j = _
        rw [hp]
        unfold parent_at node_at
        rw [upd_at_getElem_ne _ _ _ _ hne]
      · show brlen_at (reroot_loop ancs i _) j = _
        rw [hl]
        unfold brlen_at node_at
        rw [upd_at_getElem_ne _ _ _ _ hne]

/-- The walk start is always on the collected path. -/
theorem anc_chain_self_mem (t : tree_t) (fuel node : ℕ) :
    node ∈ anc_chain t fuel node := by
  cases fuel with
  | zero => exact List.mem_singleton.mpr rfl
  | succ f =>
      unfold anc_chain
      split
      · exact List.mem_singleton.mpr rfl
      · exact List.mem_cons_self _ _

/-- A found node index is in range. -/
theorem find_node_lt (t : tree_t) (name : String) (ref : ℕ)
    (h : find_node t name = some ref) : ref < t.length :=
  (List.findIdx?_eq_some_iff_findIdx_eq.mp h).1

/-- C8: for every well-formed tree and every leaf label present in it,
`reroot` modifies only the nodes on the ancestor path from the new root
(the named leaf's parent) to the old root: every node off that path
keeps its parent index and branch length unchanged, no node's label or
leaf flag is ever modified, the vector length is unchanged, and after
the call the new root is its own parent with branch length 0. -/
theorem reroot_frame (t : tree_t) (outgroup : String) (ref : ℕ)
    (t' : tree_t) (hwf : wf_tree t)
    (href : find_node t outgroup = some ref)
    (_hleaf : leaf_at t ref = true)
    (h : reroot t outgroup = .ok t') :
    t'.length = t.length ∧
      (∀ j, j ∉ anc_chain t t.length (parent_at t ref) →
        parent_at t' j = parent_at t j ∧ brlen_at t' j = brlen_at t j) ∧
      (∀ j, label_at t' j = label_at t j ∧ leaf_at t' j = leaf_at t j) ∧
      parent_at t' (parent_at t ref) = parent_at t ref ∧
      brlen_at t' (parent_at t ref) = 0 := by
  have hreflt := find_node_lt t outgroup ref href
  have hnew : parent_at t ref < t.length := by
    rcases hwf ref hreflt with hlt | ⟨-, hp⟩
    · omega
    · rw [hp]
      omega
  have hmem : parent_at t ref ∈
      anc_chain t t.length (parent_at t ref) :=
    anc_chain_self_mem _ _ _
  have hlancs : 1 ≤ (anc_chain t t.length (parent_at t ref)).length :=
    List.length_pos.mpr (List.ne_nil_of_mem hmem)
  have ht' : t' = upd_at
      (reroot_loop (anc_chain t t.length (parent_at t ref))
        ((anc_chain t t.length (parent_at t ref)).length - 1) t)
      (parent_at t ref)
      (fun x => {x with parent := parent_at t ref, length := 0}) := by
    unfold reroot at h
    rw [href] at h
    simpa using h.symm
  have hLlen : (reroot_loop (anc_chain t t.length (parent_at t ref))
      ((anc_chain t t.length (parent_at t ref)).length - 1) t).length =
      t.length := reroot_loop_length _ _ _
  refine ⟨?_, ?_, ?_, ?_, ?_⟩
  · rw [ht', upd_at_length, hLlen]
  · intro j hj
    have hne : j ≠ parent_at t ref := fun hq => hj (hq ▸ hmem)
    have hnode : node_at t' j = node_at
        (reroot_loop (anc_chain t t.length (parent_at t ref))
          ((anc_chain t t.length (parent_at t ref)).length - 1) t)
        j := by
      rw [ht']
      unfold node_at
      rw [upd_at_getElem_ne _ _ _ _ hne]
    obtain ⟨hp, hl⟩ := reroot_loop_frame
      (anc_chain t t.length (parent_at t ref))
      ((anc_chain t t.length (parent_at t ref)).length - 1) t j
      (by omega) hj
    constructor
    · unfold parent_at
      rw [hnode]
      exact hp
    · unfold brlen_at
      rw [hnode]
      exact hl
  · intro j
    obtain ⟨h1, h2⟩ := reroot_loop_label
      (anc_chain t t.length (parent_at t ref))
      ((anc_chain t t.length (parent_at t ref)).length - 1) t j
    constructor
    · rw [ht']
      rw [upd_at_label _ _
        (fun x => {x with parent := parent_at t ref, length := 0})
        (fun x => rfl) j]
      exact h1
    · rw [ht']
      rw [upd_at_leaf _ _
        (fun x => {x with parent := parent_at t ref, length := 0})
        (fun x => rfl) j]
      exact h2
  · rw [ht']
    unfold parent_at
    rw [upd_at_node_at_eq _ _ _ (by rw [reroot_loop_length]; exact hnew)]
  · rw [ht']
    unfold brlen_at
    rw [upd_at_node_at_eq _ _ _ (by rw [reroot_loop_length]; exact hnew)]

/-- The concrete tree of the C8 witness: root, an internal node `x`
(child of the root, length 2) with leaf `a` (length 5), and leaf `b`
(child of the root, length 7). -/
def wtreeA : tree_t :=
  [⟨"", 0, false, 0⟩, ⟨"x", 2, false, 0⟩, ⟨"a", 5, true, 1⟩,
    ⟨"b", 7, true, 0⟩]

/-- `wtreeA` rerooted at leaf `a`: the old root now hangs off `x` with
the transferred length 2, and `x` is its own parent with length 0. -/
def wtreeA' : tree_t :=
  [⟨"", 2, false, 1⟩, ⟨"x", 0, false, 1⟩, ⟨"a", 5, true, 1⟩,
    ⟨"b", 7, true, 0⟩]

/-- Witness for C8: rerooting `wtreeA` at leaf "a" leaves the off-path
leaf `b` and every label untouched, and makes node 1 (the parent of
"a") its own parent with branch length 0. -/
theorem reroot_frame_witness :
    parent_at wtreeA' 3 = parent_at wtreeA 3 ∧
      brlen_at wtreeA' 3 = brlen_at wtreeA 3 ∧
      label_at wtreeA' 2 = label_at wtreeA 2 ∧
      parent_at wtreeA' (parent_at wtreeA 2) = parent_at wtreeA 2 ∧
      brlen_at wtreeA' (parent_at wtreeA 2) = 0 := by
  have H := reroot_frame wtreeA "a" 2 wtreeA' (by decide) (by decide)
    (by decide) rfl
  exact ⟨(H.2.1 3 (by decide)).1, (H.2.1 3 (by decide)).2,
    (H.2.2.1 2).1, H.2.2.2.1, H.2.2.2.2⟩

end Coati
